import Mathlib

/-!
Verification development for PyFArc (`src/farc.py`), a packer/unpacker for
Virtua Fighter 5 "FArc"/"FArC" archives.

Shallow embedding conventions:
* A byte buffer is a `List Nat` (each element a byte value).  File names are
  modelled as their encoded byte sequences (the program uses one fixed
  codepage, cp932, threaded through every string operation), so string
  encoding is the identity on byte lists.
* The binary cursor (`binary_reader` package, not part of this repository) is
  modelled from the spec's contract (section 4.1): big-endian uint32 reads
  that fail out-of-bounds when fewer than 4 bytes remain, null-scan string
  reads that fail when no null byte is found, write-with-overwrite-or-append
  semantics, and `align` padding with zero bytes.
* Python's `gzip.compress` / `gzip.decompress` (stdlib, external to the
  repository) are modelled from the spec (sections 4.2/4.3): a fixed 10-byte
  header (magic `1f 8b`, method 8, flags, mtime, xfl, OS) followed by the
  body; the DEFLATE body itself is modelled as the identity transformation,
  which preserves exactly the properties the spec relies on (decompression
  inverts compression, the FNAME field is skipped on decompression, and
  decompression fails on a malformed stream).
* Python slice semantics (`buffer[offset : offset + size]` clamps to the
  buffer, never raising) are modelled faithfully by `List.drop`/`List.take`.
* Fallible operations return `Except Err` / pair their output with
  `Option Err`; `unpack` returns the list of (name, bytes) pairs actually
  emitted (written to disk) before any error, together with the error.
-/

namespace PyFArc

/-- Error taxonomy of the spec (section 7). -/
inductive Err where
  | invalidFormat
  | outOfBounds
  | malformedData
  | decompressionError
deriving DecidableEq, Repr

/-- A byte buffer: list of byte values. -/
abbrev Bytes := List Nat

/-- One input/output file: (encoded name, raw contents). -/
abbrev FileEnt := Bytes × Bytes

/-- Big-endian 4-byte encoding of a uint32 value (cursor `write_uint32`). -/
def u32be (n : Nat) : Bytes :=
  [n / 16777216 % 256, n / 65536 % 256, n / 256 % 256, n % 256]

/-- Big-endian value of a byte list. -/
def beVal (l : Bytes) : Nat :=
  l.foldl (fun acc b => acc * 256 + b) 0

/-- Cursor `read_uint32` at an absolute position: fails out of bounds when
fewer than 4 bytes remain (spec section 4.1). -/
def readU32 (buf : Bytes) (pos : Nat) : Except Err Nat :=
  if pos + 4 ≤ buf.length then .ok (beVal ((buf.drop pos).take 4))
  else .error .outOfBounds

/-- Scan a list for its first null byte; returns (bytes before the null,
number of bytes consumed including the null). -/
def takeUntilNull : Bytes → Option (Bytes × Nat)
  | [] => none
  | 0 :: _ => some ([], 1)
  | b :: rest =>
    match takeUntilNull rest with
    | some (n, k) => some (b :: n, k + 1)
    | none => none

/-- Cursor `read_str()` with no length: null-scan from the position; fails
with `malformedData` when no null byte is found (spec section 4.1). -/
def readName (buf : Bytes) (pos : Nat) : Except Err (Bytes × Nat) :=
  match takeUntilNull (buf.drop pos) with
  | some (n, k) => .ok (n, pos + k)
  | none => .error .malformedData

/-- Overwrite-or-append write of raw bytes at a position (cursor write
semantics, spec section 4.1). -/
def writeBytesAt (buf : Bytes) (pos : Nat) (bs : Bytes) : Bytes :=
  buf.take pos ++ bs ++ buf.drop (pos + bs.length)

/-- `if header_size % align_value: header_size += align_value - header_size
% align_value` — round `n` up to a multiple of `a` (also the effect of the
cursor `align` operation on a buffer of size `n`). -/
def alignUp (n a : Nat) : Nat :=
  if n % a = 0 then n else n + (a - n % a)

/-- The fixed 10-byte gzip header produced by compression: magic `1f 8b`,
method 8 (deflate), flags 0, mtime 0, extra-flags 0, OS byte 255. -/
def gzipHdr : Bytes := [31, 139, 8, 0, 0, 0, 0, 0, 0, 255]

/-- Modelled from the spec: Python stdlib `gzip.compress` (external to this
repository).  Spec section 4.2: a standard 10-byte fixed header followed by
the compressed body; the DEFLATE body is modelled as the identity. -/
def gzipCompress (d : Bytes) : Bytes := gzipHdr ++ d

/-- Drop bytes up to and including the first null byte; `none` when there is
no null byte (a gzip FNAME field with no terminator is malformed). -/
def dropThroughNull : Bytes → Option Bytes
  | [] => none
  | 0 :: rest => some rest
  | _ :: rest => dropThroughNull rest

/-- Modelled from the spec: Python stdlib `gzip.decompress` (external to
this repository).  Spec sections 4.2/4.3: checks the fixed header (magic
`1f 8b`, method 8), skips the FNAME field when flag bit `0x08` is set, and
yields the decompressed body; fails (`none`) on a malformed stream. -/
def gzipDecompress (d : Bytes) : Option Bytes :=
  match d with
  | 31 :: 139 :: 8 :: flg :: _ :: _ :: _ :: _ :: _ :: _ :: rest =>
    if flg &&& 8 ≠ 0 then dropThroughNull rest else some rest
  | _ => none

/-- `write_gzip_name` (src/farc.py lines 33-50): set the FNAME flag bit in
the flags byte at offset 3, overwrite the OS byte at offset 9 with 3 (Unix),
save the buffer tail from offset 10, write the null-terminated name at
offset 10 (overwrite-or-append), and return the buffer up to the cursor
position followed by the saved tail. -/
def write_gzip_name (name data : Bytes) : Bytes :=
  let flags := data.getD 3 0
  let b1 := writeBytesAt data 3 [flags ||| 8]
  let b2 := writeBytesAt b1 9 [3]
  let tailBuf := b2.drop 10
  let b3 := writeBytesAt b2 10 (name ++ [0])
  b3.take (10 + (name.length + 1)) ++ tailBuf

/-- Archive magic `"FArc"` (uncompressed), as cp932/ASCII bytes. -/
def strFArc : Bytes := [70, 65, 114, 99]

/-- Archive magic `"FArC"` (compressed), as cp932/ASCII bytes. -/
def strFArC : Bytes := [70, 65, 114, 67]

/-- `entry_size = 0xC if use_compression else 8` (src/farc.py line 120). -/
def entryFixed (c : Bool) : Nat := if c then 12 else 8

/-- `org_header_size` (src/farc.py line 123): per-entry cost is encoded name
length + 1 (null) + fixed entry size, summed, plus 0xC. -/
def orgHeaderSize (c : Bool) (files : List FileEnt) : Nat :=
  (files.map (fun f => f.1.length + 1 + entryFixed c)).sum + 12

/-- The payload appended to the data buffer for one file: the raw bytes, or
the gzip-compressed, name-injected bytes when compression is on
(src/farc.py lines 144-151). -/
def payloadOf (c : Bool) (name data : Bytes) : Bytes :=
  if c then write_gzip_name name (gzipCompress data) else data

/-- The entry-table bytes written by the repack loop (src/farc.py lines
134-157), parameterised by the aligned header size `H` and the current data
buffer size `ds`: per file, the null-terminated name, the offset
`H + ds`, the stored size (compressed length when compressing, raw length
otherwise), and — when compressing — the decompressed size. -/
def repackTable (c : Bool) (a H : Nat) : List FileEnt → Nat → Bytes
  | [], _ => []
  | (name, data) :: rest, ds =>
    let p := payloadOf c name data
    name ++ [0] ++ u32be (H + ds)
      ++ (if c then u32be p.length ++ u32be data.length else u32be data.length)
      ++ repackTable c a H rest (alignUp (ds + p.length) a)

/-- The data-region bytes accumulated by the repack loop: each payload
followed by zero padding up to the next multiple of the alignment
(src/farc.py lines 149-154). -/
def repackData (c : Bool) (a : Nat) : List FileEnt → Nat → Bytes
  | [], _ => []
  | (name, data) :: rest, ds =>
    let p := payloadOf c name data
    p ++ List.replicate (alignUp (ds + p.length) a - (ds + p.length)) 0
      ++ repackData c a rest (alignUp (ds + p.length) a)

/-- The final size of the data buffer after processing all files, starting
from size `ds`. -/
def finalSize (c : Bool) (a : Nat) : List FileEnt → Nat → Nat
  | [], ds => ds
  | (name, data) :: rest, ds =>
    finalSize c a rest (alignUp (ds + (payloadOf c name data).length) a)

/-- One row per table entry as laid out by repack: (name, offset,
stored size, payload bytes appended to the data buffer). -/
def layoutRows (c : Bool) (a H : Nat) : List FileEnt → Nat → List (Bytes × Nat × Nat × Bytes)
  | [], _ => []
  | (name, data) :: rest, ds =>
    let p := payloadOf c name data
    (name, H + ds, p.length, p) :: layoutRows c a H rest (alignUp (ds + p.length) a)

/-- `repack` (src/farc.py lines 102-169), as the archive bytes produced from
an ordered list of (name, contents) pairs: magic, stored header-size field
(`org_header_size - 8`), alignment field, the entry table, zero padding of
the header up to a multiple of the alignment, then the data buffer. -/
def repack (files : List FileEnt) (c : Bool) (a : Nat) : Bytes :=
  let org := orgHeaderSize c files
  let H := alignUp org a
  (if c then strFArC else strFArc) ++ u32be (org - 8) ++ u32be a
    ++ repackTable c a H files 0
    ++ List.replicate (H - org) 0
    ++ repackData c a files 0

/-- The entry-table parse loop of `unpack` (src/farc.py lines 79-86):
`while farc.pos() < header_size`, read a null-terminated name, the offset
and the stored size, and — when compressed — read and discard the
decompressed size.  The loop advances strictly each iteration, so the fuel
(chosen larger than any possible iteration count at the call site) never
runs out. -/
def parseEntries (buf : Bytes) (c : Bool) (hdr : Nat) : Nat → Nat → Except Err (List (Bytes × Nat × Nat))
  | fuel, pos =>
    if pos < hdr then
      match fuel with
      | 0 => .error .outOfBounds
      | fuel' + 1 =>
        match readName buf pos with
        | .error e => .error e
        | .ok (name, p1) =>
          match readU32 buf p1 with
          | .error e => .error e
          | .ok off =>
            match readU32 buf (p1 + 4) with
            | .error e => .error e
            | .ok sz =>
              if c then
                match readU32 buf (p1 + 8) with
                | .error e => .error e
                | .ok _ =>
                  match parseEntries buf c hdr fuel' (p1 + 12) with
                  | .error e => .error e
                  | .ok es => .ok ((name, off, sz) :: es)
              else
                match parseEntries buf c hdr fuel' (p1 + 8) with
                | .error e => .error e
                | .ok es => .ok ((name, off, sz) :: es)
    else .ok []

/-- The parse phase of `unpack` (src/farc.py lines 69-86): magic check
(`invalidFormat` otherwise), header-size field plus 8 as the header
boundary, alignment field read and discarded, then the entry-table loop.
Returns the compression flag and the parsed (name, offset, size) rows. -/
def unpackParse (buf : Bytes) : Except Err (Bool × List (Bytes × Nat × Nat)) :=
  let magic := buf.take 4
  if magic = strFArc ∨ magic = strFArC then
    match readU32 buf 4 with
    | .error e => .error e
    | .ok hsf =>
      match readU32 buf 8 with
      | .error e => .error e
      | .ok _ =>
        let c := magic = strFArC
        match parseEntries buf c (hsf + 8) (buf.length + 1) 12 with
        | .error e => .error e
        | .ok es => .ok (c, es)
  else .error .invalidFormat

/-- Python slice `buffer[offset : offset + size]`: clamps to the buffer. -/
def sliceData (buf : Bytes) (off sz : Nat) : Bytes := (buf.drop off).take sz

/-- The extraction loop of `unpack` (src/farc.py lines 88-97): for each
parsed entry in table order, slice its payload, gzip-decompress it when the
archive is compressed, and write the file.  Returns the (name, bytes) pairs
actually emitted, paired with the first error: a decompression failure
aborts the loop after earlier entries have already been written. -/
def extractEntries (buf : Bytes) (c : Bool) : List (Bytes × Nat × Nat) → List (Bytes × Bytes) × Option Err
  | [] => ([], none)
  | (name, off, sz) :: rest =>
    let raw := sliceData buf off sz
    if c then
      match gzipDecompress raw with
      | none => ([], some .decompressionError)
      | some d =>
        let r := extractEntries buf c rest
        ((name, d) :: r.1, r.2)
    else
      let r := extractEntries buf c rest
      ((name, raw) :: r.1, r.2)

/-- `unpack` (src/farc.py lines 53-99) on a full archive buffer: parse the
header and entry table, then extract entry by entry.  The first component
is the sequence of (name, bytes) pairs emitted (files written), the second
the error, if any. -/
def unpack (buf : Bytes) : List (Bytes × Bytes) × Option Err :=
  match unpackParse buf with
  | .error e => ([], some e)
  | .ok (c, es) => extractEntries buf c es

/-- Every uint32 value the repack loop writes into the entry table (offset,
stored size, decompressed size), starting from data-buffer size `ds`, fits
in a uint32. -/
def tableBounded (c : Bool) (a H : Nat) : List FileEnt → Nat → Prop
  | [], _ => True
  | (name, data) :: rest, ds =>
    (H + ds < 4294967296 ∧ (payloadOf c name data).length < 4294967296
      ∧ data.length < 4294967296)
    ∧ tableBounded c a H rest (alignUp (ds + (payloadOf c name data).length) a)

/-- The bytes of a repacked archive that precede the data region: magic,
header-size field, alignment field, entry table, and header padding. -/
def headerPart (files : List FileEnt) (c : Bool) (a : Nat) : Bytes :=
  (if c then strFArC else strFArc) ++ u32be (orgHeaderSize c files - 8) ++ u32be a
    ++ repackTable c a (alignUp (orgHeaderSize c files) a) files 0
    ++ List.replicate (alignUp (orgHeaderSize c files) a - orgHeaderSize c files) 0

/-! ### Concrete inputs used by the claim theorems -/

/-- The single input file of the spec's worked example: name `"a.txt"`
(bytes of its cp932 encoding), contents `b"hello"`. -/
def c2Files : List FileEnt := [([97, 46, 116, 120, 116], [104, 101, 108, 108, 111])]

/-- The output bytes the spec's worked example claims for
`repack c2Files false 1`. -/
def c2Claimed : Bytes :=
  [70, 65, 114, 99] ++ u32be (12 - 8) ++ u32be 1
    ++ [97, 46, 116, 120, 116, 0] ++ u32be 20 ++ u32be 5
    ++ [104, 101, 108, 108, 111]

/-- The output bytes `repack c2Files false 1` actually produces: header-size
field 18 (= 26 - 8), header boundary 26, payload offset 26. -/
def c2Actual : Bytes :=
  [70, 65, 114, 99] ++ u32be 18 ++ u32be 1
    ++ [97, 46, 116, 120, 116, 0] ++ u32be 26 ++ u32be 5
    ++ [104, 101, 108, 108, 111]

/-- A compressed (`FArC`) archive with two entries: entry `"x"` holds a
well-formed gzip stream decompressing to `[7]`, entry `"y"` holds the
malformed bytes `[1, 2, 3]`. -/
def c6Buf : Bytes :=
  [70, 65, 114, 67] ++ u32be 32 ++ u32be 1
    ++ [120, 0] ++ u32be 40 ++ u32be 11 ++ u32be 7
    ++ [121, 0] ++ u32be 51 ++ u32be 3 ++ u32be 3
    ++ [31, 139, 8, 0, 0, 0, 0, 0, 0, 255, 7] ++ [1, 2, 3]

/-- An uncompressed archive (25 bytes) whose single entry claims offset 22
and stored size 100, far beyond the end of the buffer. -/
def c7Buf : Bytes :=
  [70, 65, 114, 99] ++ u32be 14 ++ u32be 1
    ++ [120, 0] ++ u32be 22 ++ u32be 100 ++ [5, 6, 7]

/-- An uncompressed archive whose single entry points its payload at bytes
8..12 — the alignment field itself.  `c9BufA` and `c9BufB` differ only in
those four bytes. -/
def c9BufA : Bytes :=
  [70, 65, 114, 99] ++ u32be 14 ++ [0, 0, 0, 0]
    ++ [120, 0] ++ u32be 8 ++ u32be 4

/-- Same as `c9BufA` except for the four alignment bytes at offsets 8..12. -/
def c9BufB : Bytes :=
  [70, 65, 114, 99] ++ u32be 14 ++ [0, 0, 0, 9]
    ++ [120, 0] ++ u32be 8 ++ u32be 4

/-- A compressed archive whose entry table parses to two rows (`"p"` and
`"q"`, with overlapping payload ranges), where the second entry's two-byte
slice is not a valid gzip stream. -/
def c10Buf : Bytes :=
  [70, 65, 114, 67] ++ u32be 32 ++ u32be 1
    ++ [112, 0] ++ u32be 40 ++ u32be 11 ++ u32be 9
    ++ [113, 0] ++ u32be 40 ++ u32be 2 ++ u32be 9
    ++ [31, 139, 8, 0, 0, 0, 0, 0, 0, 255, 9]

/-- The C9 witness pair: two archives differing only in the alignment
bytes, whose single entry's payload range (offset 22, size 3) avoids bytes
8..12. -/
def c9WitA : Bytes :=
  [70, 65, 114, 99] ++ u32be 14 ++ [0, 0, 0, 2]
    ++ [120, 0] ++ u32be 22 ++ u32be 3 ++ [5, 6, 7]

/-- Same as `c9WitA` except for the alignment bytes. -/
def c9WitB : Bytes :=
  [70, 65, 114, 99] ++ u32be 14 ++ [0, 0, 0, 5]
    ++ [120, 0] ++ u32be 22 ++ u32be 3 ++ [5, 6, 7]

/-- A compressed single-entry archive used as the C10 witness input. -/
def c10WitBuf : Bytes :=
  [70, 65, 114, 67] ++ u32be 18 ++ u32be 1
    ++ [119, 0] ++ u32be 26 ++ u32be 11 ++ u32be 1
    ++ [31, 139, 8, 0, 0, 0, 0, 0, 0, 255, 5]

/-! ### Claim C2 -/

/-- C2, counterexample: the spec's worked example does not match the code.
`repack [("a.txt", b"hello")] (no compression, alignment 1)` does not
produce the claimed bytes, and unpacking the claimed bytes does not return
the input file (its header field 4 makes the header boundary 12, so its
entry table is empty). -/
theorem c2_counterexample :
    repack c2Files false 1 ≠ c2Claimed ∧ unpack c2Claimed ≠ (c2Files, none) := by
  decide

/-- C2, amended: the archive actually produced is `b"FArc" + u32(26-8) +
u32(1) + b"a.txt\x00" + u32(26) + u32(5) + b"hello"` — true header boundary
26, payload at offset 26 — and unpacking it returns `[("a.txt", b"hello")]`. -/
theorem c2_amended_example :
    repack c2Files false 1 = c2Actual ∧ unpack c2Actual = (c2Files, none) := by
  decide

/-! ### Claim C6 -/

/-- C6, counterexample: on `c6Buf` the unpack call ends in a decompression
error on the second entry, yet the first entry's (name, bytes) pair has
already been emitted (its file written), so the call is not all-or-nothing. -/
theorem c6_counterexample :
    (unpack c6Buf).2 = some Err.decompressionError ∧
    (unpack c6Buf).1 = [([120], [7])] := by
  decide

/-- The extraction loop can only fail with a decompression error. -/
theorem extractEntries_err (buf : Bytes) (c : Bool) :
    ∀ es e, (extractEntries buf c es).2 = some e → e = Err.decompressionError := by
  intro es
  induction es with
  | nil => intro e h; simp [extractEntries] at h
  | cons hd tl ih =>
    obtain ⟨name, off, sz⟩ := hd
    intro e h
    cases c with
    | false =>
      simp only [extractEntries, Bool.false_eq_true, if_false] at h
      exact ih e h
    | true =>
      simp only [extractEntries, if_true] at h
      cases hg : gzipDecompress (sliceData buf off sz) with
      | none => rw [hg] at h; simp at h; exact h.symm
      | some d => rw [hg] at h; simp at h; exact ih e h

/-- C6, amended: errors detected before extraction begins (bad magic,
truncated header or table, missing name terminator) commit no output at
all; but a decompression failure on a later entry still leaves every
earlier entry's file already written, so only non-decompression errors are
all-or-nothing. -/
theorem c6_amended (buf : Bytes) (e : Err) (h : (unpack buf).2 = some e)
    (hne : e ≠ Err.decompressionError) : (unpack buf).1 = [] := by
  unfold unpack at h ⊢
  cases hp : unpackParse buf with
  | error e' => rfl
  | ok ces =>
    obtain ⟨c, es⟩ := ces
    rw [hp] at h
    exact absurd (extractEntries_err buf c es e h) hne

/-- C6, witness for the amended theorem at a concrete bad-magic buffer. -/
theorem c6_amended_witness :
    (unpack [0, 0, 0, 0]).2 = some Err.invalidFormat ∧ (unpack [0, 0, 0, 0]).1 = [] :=
  ⟨by decide, c6_amended [0, 0, 0, 0] Err.invalidFormat (by decide) (by decide)⟩

/-! ### Claim C7 -/

/-- C7, counterexample: `c7Buf` parses to a single entry whose payload
range `[22, 122)` exceeds the 25-byte buffer, yet `unpack` reports no
OutOfBounds error — Python's slice clamps, and the truncated bytes
`[5, 6, 7]` are emitted. -/
theorem c7_counterexample :
    unpackParse c7Buf = .ok (false, [([120], 22, 100)]) ∧
    unpack c7Buf = ([([120], [5, 6, 7])], none) ∧
    c7Buf.length < 22 + 100 :=
  ⟨rfl, rfl, by decide⟩

/-- On an uncompressed archive the extraction loop never fails: every entry
yields the clamped slice of its payload range. -/
theorem extractEntries_uncompressed (buf : Bytes) :
    ∀ es, extractEntries buf false es
      = (es.map (fun r => (r.1, sliceData buf r.2.1 r.2.2)), none) := by
  intro es
  induction es with
  | nil => rfl
  | cons hd tl ih =>
    obtain ⟨n, o, s⟩ := hd
    simp [extractEntries, ih]

/-- C7, amended: unpack does not bound-check payload ranges.  On any
uncompressed archive whose header and table parse, extraction succeeds with
no error — an entry whose range exceeds the buffer yields its clamped
(possibly truncated or empty) slice instead of an OutOfBounds failure;
OutOfBounds arises only from header/table reads. -/
theorem c7_amended (buf : Bytes) (es : List (Bytes × Nat × Nat))
    (h : unpackParse buf = .ok (false, es)) :
    unpack buf = (es.map (fun r => (r.1, sliceData buf r.2.1 r.2.2)), none) := by
  unfold unpack
  rw [h]
  exact extractEntries_uncompressed buf es

/-- C7, witness for the amended theorem at the out-of-range entry of
`c7Buf`. -/
theorem c7_amended_witness :
    unpack c7Buf = ([([120], [5, 6, 7])], none) := by
  rw [c7_amended c7Buf [([120], 22, 100)] rfl]
  decide

/-! ### Claim C9 -/

/-- C9, counterexample: two buffers that differ only in the four alignment
bytes at offsets 8..12 can unpack to different outputs, because an entry's
payload slice may cover those very bytes (here offset 8, size 4). -/
theorem c9_counterexample :
    c9BufA.take 8 = c9BufB.take 8 ∧ c9BufA.drop 12 = c9BufB.drop 12 ∧
    c9BufA.length = c9BufB.length ∧ unpack c9BufA ≠ unpack c9BufB := by
  decide

/-- Buffers agreeing from byte 12 on agree from any byte `12 ≤ pos` on. -/
theorem drop_congr_of_drop12 (b1 b2 : Bytes) (h12 : b1.drop 12 = b2.drop 12)
    (pos : Nat) (hp : 12 ≤ pos) : b1.drop pos = b2.drop pos := by
  have e1 : b1.drop pos = (b1.drop 12).drop (pos - 12) := by
    rw [List.drop_drop]
    congr 1
    omega
  have e2 : b2.drop pos = (b2.drop 12).drop (pos - 12) := by
    rw [List.drop_drop]
    congr 1
    omega
  rw [e1, e2, h12]

/-- `readU32` at a position inside the entry table only depends on the
bytes from offset 12 on and the buffer length. -/
theorem readU32_congr (b1 b2 : Bytes) (h12 : b1.drop 12 = b2.drop 12)
    (hl : b1.length = b2.length) (pos : Nat) (hp : 12 ≤ pos) :
    readU32 b1 pos = readU32 b2 pos := by
  unfold readU32
  rw [hl, drop_congr_of_drop12 b1 b2 h12 pos hp]

/-- `readU32` at position 4 (the header-size field) only depends on the
first 8 bytes and the buffer length. -/
theorem readU32_at4_congr (b1 b2 : Bytes) (h8 : b1.take 8 = b2.take 8)
    (hl : b1.length = b2.length) : readU32 b1 4 = readU32 b2 4 := by
  have key : (b1.drop 4).take 4 = (b2.drop 4).take 4 := by
    have e1 : (b1.take 8).drop 4 = (b1.drop 4).take 4 := List.drop_take 8 4 b1
    have e2 : (b2.take 8).drop 4 = (b2.drop 4).take 4 := List.drop_take 8 4 b2
    rw [← e1, ← e2, h8]
  unfold readU32
  rw [hl, key]

/-- `readName` inside the entry table only depends on the bytes from offset
12 on. -/
theorem readName_congr (b1 b2 : Bytes) (h12 : b1.drop 12 = b2.drop 12)
    (pos : Nat) (hp : 12 ≤ pos) : readName b1 pos = readName b2 pos := by
  unfold readName
  rw [drop_congr_of_drop12 b1 b2 h12 pos hp]

/-- The entry-table parse loop reads only at positions ≥ 12, so it is
unchanged when only the alignment bytes 8..12 differ. -/
theorem parseEntries_congr (b1 b2 : Bytes) (h12 : b1.drop 12 = b2.drop 12)
    (hl : b1.length = b2.length) (c : Bool) (hdr : Nat) :
    ∀ fuel pos, 12 ≤ pos → parseEntries b1 c hdr fuel pos = parseEntries b2 c hdr fuel pos := by
  intro fuel
  induction fuel with
  | zero =>
    intro pos hp
    simp only [parseEntries]
  | succ f ih =>
    intro pos hp
    simp only [parseEntries]
    by_cases hph : pos < hdr
    · simp only [if_pos hph]
      rw [readName_congr b1 b2 h12 pos hp]
      cases hn : readName b2 pos with
      | error e => rfl
      | ok np =>
        obtain ⟨name, p1⟩ := np
        have hp1 : 12 ≤ p1 := by
          unfold readName at hn
          cases ht : takeUntilNull (b2.drop pos) with
          | none => rw [ht] at hn; exact absurd hn (by simp)
          | some nk =>
            rw [ht] at hn
            obtain ⟨n', k⟩ := nk
            simp at hn
            omega
        dsimp only
        rw [readU32_congr b1 b2 h12 hl p1 hp1,
            readU32_congr b1 b2 h12 hl (p1 + 4) (by omega)]
        cases readU32 b2 p1 with
        | error e => rfl
        | ok off =>
          cases readU32 b2 (p1 + 4) with
          | error e => rfl
          | ok sz =>
            cases c with
            | false =>
              rw [ih (p1 + 8) (by omega)]
              rfl
            | true =>
              rw [readU32_congr b1 b2 h12 hl (p1 + 8) (by omega)]
              cases readU32 b2 (p1 + 8) with
              | error e => rfl
              | ok d =>
                rw [ih (p1 + 12) (by omega)]
                rfl
    · simp only [if_neg hph]

/-- The whole parse phase of unpack is unchanged when only the four
alignment bytes at offsets 8..12 differ: the alignment value is read and
discarded. -/
theorem unpackParse_congr (b1 b2 : Bytes) (h8 : b1.take 8 = b2.take 8)
    (h12 : b1.drop 12 = b2.drop 12) (hl : b1.length = b2.length) :
    unpackParse b1 = unpackParse b2 := by
  have h4 : b1.take 4 = b2.take 4 := by
    have e := congrArg (List.take 4) h8
    simpa [List.take_take] using e
  unfold unpackParse
  rw [h4, readU32_at4_congr b1 b2 h8 hl]
  by_cases hm : b2.take 4 = strFArc ∨ b2.take 4 = strFArC
  · simp only [if_pos hm]
    cases readU32 b2 4 with
    | error e => rfl
    | ok hsf =>
      dsimp only
      by_cases hlen : 8 + 4 ≤ b1.length
      · have r1 : readU32 b1 8 = .ok (beVal ((b1.drop 8).take 4)) := by
          unfold readU32
          rw [if_pos hlen]
        have r2 : readU32 b2 8 = .ok (beVal ((b2.drop 8).take 4)) := by
          unfold readU32
          rw [if_pos (hl ▸ hlen)]
        rw [r1, r2]
        dsimp only
        rw [hl,
            parseEntries_congr b1 b2 h12 hl (decide (b2.take 4 = strFArC)) (hsf + 8) (b2.length + 1) 12 (by omega)]
      · have r1 : readU32 b1 8 = .error .outOfBounds := by
          unfold readU32
          rw [if_neg hlen]
        have r2 : readU32 b2 8 = .error .outOfBounds := by
          unfold readU32
          rw [if_neg (by omega : ¬ 8 + 4 ≤ b2.length)]
        rw [r1, r2]
  · simp only [if_neg hm]

/-- A payload slice is unchanged when only bytes 8..12 differ, provided its
range does not meet those bytes. -/
theorem sliceData_congr (b1 b2 : Bytes) (h8 : b1.take 8 = b2.take 8)
    (h12 : b1.drop 12 = b2.drop 12) (off sz : Nat)
    (hcond : 12 ≤ off ∨ off + sz ≤ 8) :
    sliceData b1 off sz = sliceData b2 off sz := by
  unfold sliceData
  rcases hcond with h | h
  · rw [drop_congr_of_drop12 b1 b2 h12 off h]
  · have key : ∀ b : Bytes, b.take 8 = b1.take 8 ∨ b.take 8 = b2.take 8 →
        (b.drop off).take sz = ((b.take 8).drop off).take sz := by
      intro b _
      rw [List.drop_take]
      rw [List.take_take]
      congr 1
      omega
    rw [key b1 (Or.inl rfl), key b2 (Or.inr rfl), h8]

/-- The extraction loop is unchanged when only bytes 8..12 differ and no
entry's payload range meets those bytes. -/
theorem extractEntries_congr (b1 b2 : Bytes) (h8 : b1.take 8 = b2.take 8)
    (h12 : b1.drop 12 = b2.drop 12) (c : Bool) :
    ∀ es, (∀ r ∈ es, 12 ≤ r.2.1 ∨ r.2.1 + r.2.2 ≤ 8) →
    extractEntries b1 c es = extractEntries b2 c es := by
  intro es
  induction es with
  | nil => intro _; rfl
  | cons hd tl ih =>
    intro hall
    obtain ⟨n, o, s⟩ := hd
    have hs := sliceData_congr b1 b2 h8 h12 o s (hall (n, o, s) (List.mem_cons_self _ _))
    have ht := ih (fun r hr => hall r (List.mem_cons_of_mem _ hr))
    simp only [extractEntries, hs, ht]

/-- C9, amended: the alignment field is read and discarded, so the parse
phase (magic, header boundary, entry table, or the error) is identical for
buffers differing only in bytes 8..12; and the full unpack output is
identical provided no parsed entry's payload range intersects those bytes —
an entry may otherwise slice the alignment field itself. -/
theorem c9_amended (b1 b2 : Bytes) (h8 : b1.take 8 = b2.take 8)
    (h12 : b1.drop 12 = b2.drop 12) (hl : b1.length = b2.length) :
    unpackParse b1 = unpackParse b2 ∧
    (∀ c es, unpackParse b1 = .ok (c, es) →
      (∀ r ∈ es, 12 ≤ r.2.1 ∨ r.2.1 + r.2.2 ≤ 8) → unpack b1 = unpack b2) := by
  have hp := unpackParse_congr b1 b2 h8 h12 hl
  refine ⟨hp, ?_⟩
  intro c es h hr
  have h2 : unpackParse b2 = .ok (c, es) := by rw [← hp]; exact h
  unfold unpack
  rw [h, h2]
  exact extractEntries_congr b1 b2 h8 h12 c es hr

/-- C9, witness for the amended theorem at a concrete pair of buffers. -/
theorem c9_amended_witness : unpack c9WitA = unpack c9WitB :=
  (c9_amended c9WitA c9WitB (by decide) (by decide) (by decide)).2
    false [([120], 22, 3)] rfl (by decide)

/-! ### Claim C10 -/

/-- C10, counterexample: `c10Buf`'s magic and entry table parse successfully
to two rows, but only one (name, bytes) pair is emitted — the second
entry's two-byte slice fails gzip decompression, so "one pair per table
entry" does not hold for compressed archives. -/
theorem c10_counterexample :
    unpackParse c10Buf = .ok (true, [([112], 40, 11), ([113], 40, 2)]) ∧
    (unpack c10Buf).1.length = 1 :=
  ⟨rfl, rfl⟩

/-- On a compressed archive whose every entry decompresses, the extraction
loop emits one pair per entry, in order. -/
theorem extractEntries_compressed (buf : Bytes) :
    ∀ es, (∀ r ∈ es, (gzipDecompress (sliceData buf r.2.1 r.2.2)).isSome) →
    extractEntries buf true es
      = (es.map (fun r => (r.1, (gzipDecompress (sliceData buf r.2.1 r.2.2)).getD [])), none) := by
  intro es
  induction es with
  | nil => intro _; rfl
  | cons hd tl ih =>
    intro hall
    obtain ⟨n, o, s⟩ := hd
    have hh := hall (n, o, s) (List.mem_cons_self _ _)
    obtain ⟨d, hg⟩ := Option.isSome_iff_exists.mp hh
    have ht := ih (fun r hr => hall r (List.mem_cons_of_mem _ hr))
    simp only [extractEntries, if_true, hg, ht]
    simp [hg]

/-- C10, amended: unpack applies no validation to the parsed entry table —
no offset monotonicity, overlap, header-region or duplicate-name check.
For every buffer whose magic and table parse, it emits exactly one pair per
table entry in table order, provided (for compressed archives) each entry's
slice decompresses; a decompression failure is the only way extraction can
emit fewer pairs. -/
theorem c10_amended (buf : Bytes) (c : Bool) (es : List (Bytes × Nat × Nat))
    (h : unpackParse buf = .ok (c, es))
    (hd : c = true → ∀ r ∈ es, (gzipDecompress (sliceData buf r.2.1 r.2.2)).isSome) :
    (unpack buf).1.length = es.length ∧
    (unpack buf).1.map Prod.fst = es.map Prod.fst ∧ (unpack buf).2 = none := by
  have hu : unpack buf = extractEntries buf c es := by unfold unpack; rw [h]
  cases c with
  | false =>
    rw [hu, extractEntries_uncompressed buf es]
    simp
  | true =>
    rw [hu, extractEntries_compressed buf es (hd rfl)]
    simp

/-- C10, witness for the amended theorem at a concrete compressed archive. -/
theorem c10_amended_witness :
    (unpack c10WitBuf).1.length = 1 ∧ (unpack c10WitBuf).2 = none := by
  have h := c10_amended c10WitBuf true [([119], 26, 11)] rfl (by decide)
  exact ⟨h.1, h.2.2⟩

/-! ### Layout arithmetic -/

/-- Rounding up never shrinks. -/
theorem alignUp_le (n a : Nat) : n ≤ alignUp n a := by
  unfold alignUp
  split <;> omega

/-- Rounding up to a positive alignment yields a multiple of it. -/
theorem alignUp_mod (n a : Nat) (ha : 1 ≤ a) : alignUp n a % a = 0 := by
  unfold alignUp
  by_cases h : n % a = 0
  · rw [if_pos h]
    exact h
  · have hd := Nat.div_add_mod n a
    have hlt : n % a < a := Nat.mod_lt _ (by omega)
    have he : n + (a - n % a) = a * (n / a) + a := by omega
    have he2 : a * (n / a) + a = a * (n / a + 1) := by ring
    rw [if_neg h, he, he2]
    exact Nat.mul_mod_right _ _

/-- For a nonzero size, the aligned size is at least the alignment. -/
theorem alignUp_ge_align (n a : Nat) (hn : 0 < n) : a ≤ alignUp n a := by
  unfold alignUp
  by_cases h : n % a = 0
  · rw [if_pos h]
    rcases Nat.eq_zero_or_pos a with ha | ha
    · omega
    · exact Nat.le_of_dvd hn (Nat.dvd_of_mod_eq_zero h)
  · have := Nat.mod_le n a
    rw [if_neg h]
    omega

/-- Reading back a big-endian uint32 recovers the value. -/
theorem beVal_u32be (n : Nat) (h : n < 4294967296) : beVal (u32be n) = n := by
  simp only [beVal, u32be, List.foldl]
  omega

/-- `readU32` at the boundary between a prefix and an encoded uint32. -/
theorem readU32_append (pre ys : Bytes) (n pos : Nat) (hpos : pos = pre.length)
    (h : n < 4294967296) : readU32 (pre ++ (u32be n ++ ys)) pos = .ok n := by
  subst hpos
  unfold readU32
  rw [if_pos (by simp [u32be])]
  rw [List.drop_left]
  rw [List.take_left' (by simp [u32be])]
  rw [beVal_u32be n h]

/-- Null-scanning a null-free name followed by a null terminator finds
exactly the name. -/
theorem takeUntilNull_append (name rest : Bytes) (h : (0 : Nat) ∉ name) :
    takeUntilNull (name ++ 0 :: rest) = some (name, name.length + 1) := by
  induction name with
  | nil => rfl
  | cons b bs ih =>
    have hb : b ≠ 0 := fun h0 => h (h0 ▸ List.mem_cons_self b bs)
    obtain ⟨m, rfl⟩ : ∃ m, b = m + 1 := ⟨b - 1, by omega⟩
    have ih' := ih (fun hm => h (List.mem_cons_of_mem _ hm))
    simp [takeUntilNull, ih']

/-- `readName` at the boundary before a null-terminated name. -/
theorem readName_append (pre name ys : Bytes) (pos : Nat) (hpos : pos = pre.length)
    (h : (0 : Nat) ∉ name) :
    readName (pre ++ (name ++ 0 :: ys)) pos = .ok (name, pos + (name.length + 1)) := by
  subst hpos
  unfold readName
  rw [List.drop_left, takeUntilNull_append name ys h]

/-- The entry table's byte length is the per-entry cost sum of
`org_header_size`. -/
theorem repackTable_length (c : Bool) (a H : Nat) :
    ∀ (files : List FileEnt) (ds : Nat),
      (repackTable c a H files ds).length
        = (files.map (fun f => f.1.length + 1 + entryFixed c)).sum := by
  intro files
  induction files with
  | nil => intro ds; rfl
  | cons hd tl ih =>
    intro ds
    obtain ⟨name, data⟩ := hd
    cases c <;> simp [repackTable, entryFixed, u32be, ih] <;> omega

/-- The data buffer only grows. -/
theorem finalSize_le (c : Bool) (a : Nat) :
    ∀ (files : List FileEnt) (ds : Nat), ds ≤ finalSize c a files ds := by
  intro files
  induction files with
  | nil => intro ds; exact Nat.le_refl ds
  | cons hd tl ih =>
    intro ds
    obtain ⟨name, data⟩ := hd
    calc ds ≤ alignUp (ds + (payloadOf c name data).length) a := by
              have := alignUp_le (ds + (payloadOf c name data).length) a
              omega
      _ ≤ _ := ih _

/-- The data-region bytes have length `finalSize - ds`. -/
theorem repackData_length (c : Bool) (a : Nat) :
    ∀ (files : List FileEnt) (ds : Nat),
      (repackData c a files ds).length = finalSize c a files ds - ds := by
  intro files
  induction files with
  | nil => intro ds; simp [repackData, finalSize]
  | cons hd tl ih =>
    intro ds
    obtain ⟨name, data⟩ := hd
    have h1 := alignUp_le (ds + (payloadOf c name data).length) a
    have h2 := finalSize_le c a tl (alignUp (ds + (payloadOf c name data).length) a)
    simp [repackData, finalSize, ih]
    omega

/-- `org_header_size` is at least the 12 fixed bytes. -/
theorem orgHeaderSize_ge (c : Bool) (files : List FileEnt) :
    12 ≤ orgHeaderSize c files := by
  unfold orgHeaderSize
  omega

/-- There are at most as many files as table-cost bytes. -/
theorem length_le_cost_sum (c : Bool) (files : List FileEnt) :
    files.length ≤ (files.map (fun f => f.1.length + 1 + entryFixed c)).sum := by
  induction files with
  | nil => simp
  | cons hd tl ih =>
    have : 1 ≤ hd.1.length + 1 + entryFixed c := by omega
    simp only [List.map_cons, List.sum_cons, List.length_cons]
    omega

/-- A repacked archive splits into its header part and its data region. -/
theorem repack_eq_parts (files : List FileEnt) (c : Bool) (a : Nat) :
    repack files c a = headerPart files c a ++ repackData c a files 0 := by
  simp [repack, headerPart, List.append_assoc]

/-- The header part is exactly the aligned header size. -/
theorem headerPart_length (files : List FileEnt) (c : Bool) (a : Nat) :
    (headerPart files c a).length = alignUp (orgHeaderSize c files) a := by
  have h1 := repackTable_length c a (alignUp (orgHeaderSize c files) a) files 0
  have h2 := orgHeaderSize_ge c files
  have h3 := alignUp_le (orgHeaderSize c files) a
  have hmagic : (if c then strFArC else strFArc).length = 4 := by
    cases c <;> rfl
  have horg : (files.map (fun f => f.1.length + 1 + entryFixed c)).sum
      = orgHeaderSize c files - 12 := by
    unfold orgHeaderSize
    omega
  rw [horg] at h1
  simp only [headerPart, List.length_append, hmagic, h1, List.length_replicate, u32be,
    List.length_cons, List.length_nil]
  omega

/-- Total archive length: aligned header plus final data-buffer size. -/
theorem repack_length (files : List FileEnt) (c : Bool) (a : Nat) :
    (repack files c a).length
      = alignUp (orgHeaderSize c files) a + finalSize c a files 0 := by
  rw [repack_eq_parts, List.length_append, headerPart_length,
      repackData_length c a files 0]
  omega

/-! ### Payload structure -/

/-- Compressing a file and injecting its name yields the patched 10-byte
gzip header (FNAME flag set, OS byte 3), the null-terminated name, then the
body. -/
theorem payloadOf_true (name data : Bytes) :
    payloadOf true name data
      = [31, 139, 8, 8, 0, 0, 0, 0, 0, 3] ++ (name ++ 0 :: data) := by
  unfold payloadOf write_gzip_name writeBytesAt gzipCompress gzipHdr
  simp
  have hsplit : (31 :: 139 :: 8 :: 8 :: 0 :: 0 :: 0 :: 0 :: 0 :: 3 ::
      (name ++ 0 :: List.drop (10 + (name.length + 1))
        (31 :: 139 :: 8 :: 8 :: 0 :: 0 :: 0 :: 0 :: 0 :: 3 :: data)))
      = ([31, 139, 8, 8, 0, 0, 0, 0, 0, 3] ++ (name ++ [0]))
          ++ List.drop (10 + (name.length + 1))
            (31 :: 139 :: 8 :: 8 :: 0 :: 0 :: 0 :: 0 :: 0 :: 3 :: data) := by
    simp
  rw [hsplit, List.take_left' (by simp; omega)]
  simp

/-- Length of a compressed, name-injected payload. -/
theorem payloadOf_true_length (name data : Bytes) :
    (payloadOf true name data).length = name.length + data.length + 11 := by
  rw [payloadOf_true]
  simp
  omega

/-- The raw file contents are never longer than their payload. -/
theorem data_le_payload (c : Bool) (name data : Bytes) :
    data.length ≤ (payloadOf c name data).length := by
  cases c with
  | false => exact Nat.le_refl _
  | true =>
    rw [payloadOf_true_length]
    omega

/-- Dropping through a null-free name's terminator recovers the rest. -/
theorem dropThroughNull_append (name rest : Bytes) (h : (0 : Nat) ∉ name) :
    dropThroughNull (name ++ 0 :: rest) = some rest := by
  induction name with
  | nil => rfl
  | cons b bs ih =>
    have hb : b ≠ 0 := fun h0 => h (h0 ▸ List.mem_cons_self b bs)
    obtain ⟨m, rfl⟩ : ∃ m, b = m + 1 := ⟨b - 1, by omega⟩
    have ih' := ih (fun hm => h (List.mem_cons_of_mem _ hm))
    simpa [dropThroughNull] using ih'

/-- Standard gzip decompression of a compressed, name-injected payload
skips the FNAME field and recovers the original contents. -/
theorem gzipDecompress_payload (name data : Bytes) (h : (0 : Nat) ∉ name) :
    gzipDecompress (payloadOf true name data) = some data := by
  rw [payloadOf_true]
  show gzipDecompress
    (31 :: 139 :: 8 :: 8 :: 0 :: 0 :: 0 :: 0 :: 0 :: 3 :: (name ++ 0 :: data)) = some data
  have hm : gzipDecompress
      (31 :: 139 :: 8 :: 8 :: 0 :: 0 :: 0 :: 0 :: 0 :: 3 :: (name ++ 0 :: data))
      = if (8 : Nat) &&& 8 ≠ 0 then dropThroughNull (name ++ 0 :: data)
        else some (name ++ 0 :: data) := rfl
  rw [hm, if_pos (by decide)]
  exact dropThroughNull_append name data h

/-- All table fields fit in a uint32 whenever the whole archive does. -/
theorem tableBounded_of_lt (c : Bool) (a H : Nat) :
    ∀ (files : List FileEnt) (ds : Nat),
      H + finalSize c a files ds < 4294967296 → tableBounded c a H files ds := by
  intro files
  induction files with
  | nil => intro ds _; trivial
  | cons hd tl ih =>
    intro ds hlt
    obtain ⟨name, data⟩ := hd
    have h1 := alignUp_le (ds + (payloadOf c name data).length) a
    have h2 := finalSize_le c a tl (alignUp (ds + (payloadOf c name data).length) a)
    have h3 := data_le_payload c name data
    have hfs : finalSize c a ((name, data) :: tl) ds
        = finalSize c a tl (alignUp (ds + (payloadOf c name data).length) a) := rfl
    rw [hfs] at hlt
    refine ⟨⟨by omega, by omega, by omega⟩, ih _ hlt⟩

/-! ### Parsing back a repacked entry table -/

/-- Parsing the entry table written by the repack loop, embedded after an
arbitrary prefix and before an arbitrary suffix, recovers exactly the rows
the loop laid out: names with their offsets and stored sizes. -/
theorem parse_repackTable (c : Bool) (a H : Nat) :
    ∀ (files : List FileEnt) (pre suffix : Bytes) (ds fuel : Nat),
      (∀ f ∈ files, (0 : Nat) ∉ f.1) →
      tableBounded c a H files ds →
      files.length ≤ fuel →
      parseEntries (pre ++ (repackTable c a H files ds ++ suffix)) c
          (pre.length + (repackTable c a H files ds).length) fuel pre.length
        = .ok ((layoutRows c a H files ds).map (fun r => (r.1, r.2.1, r.2.2.1))) := by
  intro files
  induction files with
  | nil =>
    intro pre suffix ds fuel hn hb hf
    simp only [repackTable, layoutRows, List.length_nil, Nat.add_zero, List.map_nil]
    cases fuel <;> simp [parseEntries]
  | cons hd tl ih =>
    intro pre suffix ds fuel hn hb hf
    obtain ⟨name, data⟩ := hd
    obtain ⟨⟨hoff, hsz, hdec⟩, hbtl⟩ := hb
    have hname : (0 : Nat) ∉ name := hn (name, data) (List.mem_cons_self _ _)
    have hntl : ∀ f ∈ tl, (0 : Nat) ∉ f.1 := fun f hf' => hn f (List.mem_cons_of_mem _ hf')
    cases fuel with
    | zero => exact absurd hf (by simp)
    | succ f =>
      have hfle : tl.length ≤ f := by
        simp only [List.length_cons] at hf
        omega
      cases c with
      | false =>
        have hT : repackTable false a H ((name, data) :: tl) ds
            = name ++ 0 :: (u32be (H + ds)
                ++ (u32be data.length
                  ++ repackTable false a H tl (alignUp (ds + data.length) a))) := by
          simp [repackTable, payloadOf, List.append_assoc]
        have hpd : payloadOf false name data = data := rfl
        rw [hT]
        have hTlen : (name ++ 0 :: (u32be (H + ds)
            ++ (u32be data.length
              ++ repackTable false a H tl (alignUp (ds + data.length) a)))).length
            = name.length + 9
              + (repackTable false a H tl (alignUp (ds + data.length) a)).length := by
          simp [u32be]
          omega
        simp only [parseEntries]
        rw [if_pos (by omega)]
        have hrn : readName (pre ++ (name ++ 0 :: (u32be (H + ds)
            ++ (u32be data.length
              ++ repackTable false a H tl (alignUp (ds + data.length) a))) ++ suffix))
            pre.length
            = .ok (name, pre.length + (name.length + 1)) := by
          have hsh : pre ++ (name ++ 0 :: (u32be (H + ds)
              ++ (u32be data.length
                ++ repackTable false a H tl (alignUp (ds + data.length) a))) ++ suffix)
              = pre ++ (name ++ 0 :: (u32be (H + ds)
                ++ (u32be data.length
                  ++ (repackTable false a H tl (alignUp (ds + data.length) a)
                    ++ suffix)))) := by
            simp [List.append_assoc]
          rw [hsh]
          exact readName_append _ _ _ _ rfl hname
        rw [hrn]
        dsimp only
        have hr1 : readU32 (pre ++ (name ++ 0 :: (u32be (H + ds)
            ++ (u32be data.length
              ++ repackTable false a H tl (alignUp (ds + data.length) a))) ++ suffix))
            (pre.length + (name.length + 1))
            = .ok (H + ds) := by
          have hsh : pre ++ (name ++ 0 :: (u32be (H + ds)
              ++ (u32be data.length
                ++ repackTable false a H tl (alignUp (ds + data.length) a))) ++ suffix)
              = (pre ++ (name ++ [0])) ++ (u32be (H + ds)
                ++ (u32be data.length
                  ++ (repackTable false a H tl (alignUp (ds + data.length) a)
                    ++ suffix))) := by
            simp [List.append_assoc]
          rw [hsh]
          exact readU32_append _ _ _ _ (by simp) hoff
        rw [hr1]
        dsimp only
        have hr2 : readU32 (pre ++ (name ++ 0 :: (u32be (H + ds)
            ++ (u32be data.length
              ++ repackTable false a H tl (alignUp (ds + data.length) a))) ++ suffix))
            (pre.length + (name.length + 1) + 4)
            = .ok data.length := by
          have hsh : pre ++ (name ++ 0 :: (u32be (H + ds)
              ++ (u32be data.length
                ++ repackTable false a H tl (alignUp (ds + data.length) a))) ++ suffix)
              = (pre ++ (name ++ [0]) ++ u32be (H + ds)) ++ (u32be data.length
                ++ (repackTable false a H tl (alignUp (ds + data.length) a)
                  ++ suffix)) := by
            simp [List.append_assoc]
          rw [hsh]
          refine readU32_append _ _ _ _ ?_ (hpd ▸ hsz)
          simp [u32be]
          omega
        rw [hr2]
        dsimp only
        have hrec : parseEntries (pre ++ (name ++ 0 :: (u32be (H + ds)
            ++ (u32be data.length
              ++ repackTable false a H tl (alignUp (ds + data.length) a))) ++ suffix))
            false
            (pre.length + (name ++ 0 :: (u32be (H + ds)
              ++ (u32be data.length
                ++ repackTable false a H tl (alignUp (ds + data.length) a)))).length)
            f (pre.length + (name.length + 1) + 8)
            = .ok ((layoutRows false a H tl (alignUp (ds + data.length) a)).map
                (fun r => (r.1, r.2.1, r.2.2.1))) := by
          have hsh : pre ++ (name ++ 0 :: (u32be (H + ds)
              ++ (u32be data.length
                ++ repackTable false a H tl (alignUp (ds + data.length) a))) ++ suffix)
              = (pre ++ (name ++ [0]) ++ u32be (H + ds) ++ u32be data.length)
                ++ (repackTable false a H tl (alignUp (ds + data.length) a) ++ suffix) := by
            simp [List.append_assoc]
          have hlen : (pre ++ (name ++ [0]) ++ u32be (H + ds)
              ++ u32be data.length).length = pre.length + (name.length + 1) + 8 := by
            simp [u32be]
            omega
          have hhdr : pre.length + (name ++ 0 :: (u32be (H + ds)
              ++ (u32be data.length
                ++ repackTable false a H tl (alignUp (ds + data.length) a)))).length
              = (pre ++ (name ++ [0]) ++ u32be (H + ds) ++ u32be data.length).length
                + (repackTable false a H tl (alignUp (ds + data.length) a)).length := by
            rw [hlen, hTlen]
            omega
          rw [hsh, hhdr, ← hlen]
          exact ih _ suffix _ f hntl (hpd ▸ hbtl) hfle
        rw [hrec]
        dsimp only
        simp [layoutRows, payloadOf]
      | true =>
        have hT : repackTable true a H ((name, data) :: tl) ds
            = name ++ 0 :: (u32be (H + ds)
                ++ (u32be (payloadOf true name data).length
                  ++ (u32be data.length
                    ++ repackTable true a H tl
                      (alignUp (ds + (payloadOf true name data).length) a)))) := by
          simp [repackTable, List.append_assoc]
        rw [hT]
        have hTlen : (name ++ 0 :: (u32be (H + ds)
            ++ (u32be (payloadOf true name data).length
              ++ (u32be data.length
                ++ repackTable true a H tl
                  (alignUp (ds + (payloadOf true name data).length) a))))).length
            = name.length + 13
              + (repackTable true a H tl
                  (alignUp (ds + (payloadOf true name data).length) a)).length := by
          simp [u32be]
          omega
        simp only [parseEntries]
        rw [if_pos (by omega)]
        have hrn : readName (pre ++ (name ++ 0 :: (u32be (H + ds)
            ++ (u32be (payloadOf true name data).length
              ++ (u32be data.length
                ++ repackTable true a H tl
                  (alignUp (ds + (payloadOf true name data).length) a)))) ++ suffix))
            pre.length
            = .ok (name, pre.length + (name.length + 1)) := by
          have hsh : pre ++ (name ++ 0 :: (u32be (H + ds)
              ++ (u32be (payloadOf true name data).length
                ++ (u32be data.length
                  ++ repackTable true a H tl
                    (alignUp (ds + (payloadOf true name data).length) a)))) ++ suffix)
              = pre ++ (name ++ 0 :: (u32be (H + ds)
                ++ (u32be (payloadOf true name data).length
                  ++ (u32be data.length
                    ++ (repackTable true a H tl
                        (alignUp (ds + (payloadOf true name data).length) a)
                      ++ suffix))))) := by
            simp [List.append_assoc]
          rw [hsh]
          exact readName_append _ _ _ _ rfl hname
        rw [hrn]
        dsimp only
        have hr1 : readU32 (pre ++ (name ++ 0 :: (u32be (H + ds)
            ++ (u32be (payloadOf true name data).length
              ++ (u32be data.length
                ++ repackTable true a H tl
                  (alignUp (ds + (payloadOf true name data).length) a)))) ++ suffix))
            (pre.length + (name.length + 1))
            = .ok (H + ds) := by
          have hsh : pre ++ (name ++ 0 :: (u32be (H + ds)
              ++ (u32be (payloadOf true name data).length
                ++ (u32be data.length
                  ++ repackTable true a H tl
                    (alignUp (ds + (payloadOf true name data).length) a)))) ++ suffix)
              = (pre ++ (name ++ [0])) ++ (u32be (H + ds)
                ++ (u32be (payloadOf true name data).length
                  ++ (u32be data.length
                    ++ (repackTable true a H tl
                        (alignUp (ds + (payloadOf true name data).length) a)
                      ++ suffix)))) := by
            simp [List.append_assoc]
          rw [hsh]
          exact readU32_append _ _ _ _ (by simp) hoff
        rw [hr1]
        dsimp only
        have hr2 : readU32 (pre ++ (name ++ 0 :: (u32be (H + ds)
            ++ (u32be (payloadOf true name data).length
              ++ (u32be data.length
                ++ repackTable true a H tl
                  (alignUp (ds + (payloadOf true name data).length) a)))) ++ suffix))
            (pre.length + (name.length + 1) + 4)
            = .ok (payloadOf true name data).length := by
          have hsh : pre ++ (name ++ 0 :: (u32be (H + ds)
              ++ (u32be (payloadOf true name data).length
                ++ (u32be data.length
                  ++ repackTable true a H tl
                    (alignUp (ds + (payloadOf true name data).length) a)))) ++ suffix)
              = (pre ++ (name ++ [0]) ++ u32be (H + ds))
                ++ (u32be (payloadOf true name data).length
                  ++ (u32be data.length
                    ++ (repackTable true a H tl
                        (alignUp (ds + (payloadOf true name data).length) a)
                      ++ suffix))) := by
            simp [List.append_assoc]
          rw [hsh]
          refine readU32_append _ _ _ _ ?_ hsz
          simp [u32be]
          omega
        rw [hr2]
        dsimp only
        have hr3 : readU32 (pre ++ (name ++ 0 :: (u32be (H + ds)
            ++ (u32be (payloadOf true name data).length
              ++ (u32be data.length
                ++ repackTable true a H tl
                  (alignUp (ds + (payloadOf true name data).length) a)))) ++ suffix))
            (pre.length + (name.length + 1) + 8)
            = .ok data.length := by
          have hsh : pre ++ (name ++ 0 :: (u32be (H + ds)
              ++ (u32be (payloadOf true name data).length
                ++ (u32be data.length
                  ++ repackTable true a H tl
                    (alignUp (ds + (payloadOf true name data).length) a)))) ++ suffix)
              = (pre ++ (name ++ [0]) ++ u32be (H + ds)
                  ++ u32be (payloadOf true name data).length)
                ++ (u32be data.length
                  ++ (repackTable true a H tl
                      (alignUp (ds + (payloadOf true name data).length) a)
                    ++ suffix)) := by
            simp [List.append_assoc]
          rw [hsh]
          refine readU32_append _ _ _ _ ?_ hdec
          simp [u32be]
          omega
        rw [hr3]
        dsimp only
        have hrec : parseEntries (pre ++ (name ++ 0 :: (u32be (H + ds)
            ++ (u32be (payloadOf true name data).length
              ++ (u32be data.length
                ++ repackTable true a H tl
                  (alignUp (ds + (payloadOf true name data).length) a)))) ++ suffix))
            true
            (pre.length + (name ++ 0 :: (u32be (H + ds)
              ++ (u32be (payloadOf true name data).length
                ++ (u32be data.length
                  ++ repackTable true a H tl
                    (alignUp (ds + (payloadOf true name data).length) a))))).length)
            f (pre.length + (name.length + 1) + 12)
            = .ok ((layoutRows true a H tl
                (alignUp (ds + (payloadOf true name data).length) a)).map
                (fun r => (r.1, r.2.1, r.2.2.1))) := by
          have hsh : pre ++ (name ++ 0 :: (u32be (H + ds)
              ++ (u32be (payloadOf true name data).length
                ++ (u32be data.length
                  ++ repackTable true a H tl
                    (alignUp (ds + (payloadOf true name data).length) a)))) ++ suffix)
              = (pre ++ (name ++ [0]) ++ u32be (H + ds)
                  ++ u32be (payloadOf true name data).length ++ u32be data.length)
                ++ (repackTable true a H tl
                    (alignUp (ds + (payloadOf true name data).length) a) ++ suffix) := by
            simp [List.append_assoc]
          have hlen : (pre ++ (name ++ [0]) ++ u32be (H + ds)
              ++ u32be (payloadOf true name data).length
              ++ u32be data.length).length
              = pre.length + (name.length + 1) + 12 := by
            simp [u32be]
            omega
          have hhdr : pre.length + (name ++ 0 :: (u32be (H + ds)
              ++ (u32be (payloadOf true name data).length
                ++ (u32be data.length
                  ++ repackTable true a H tl
                    (alignUp (ds + (payloadOf true name data).length) a))))).length
              = (pre ++ (name ++ [0]) ++ u32be (H + ds)
                  ++ u32be (payloadOf true name data).length
                  ++ u32be data.length).length
                + (repackTable true a H tl
                    (alignUp (ds + (payloadOf true name data).length) a)).length := by
            rw [hlen, hTlen]
            omega
          rw [hsh, hhdr, ← hlen]
          exact ih _ suffix _ f hntl hbtl hfle
        rw [hrec]
        dsimp only
        simp [layoutRows]

/-! ### Extracting a repacked data region -/

/-- The slice of the output at a layout row's offset/stored-size range is
exactly that row's payload. -/
theorem slice_layoutRows (c : Bool) (a H' : Nat) :
    ∀ (files : List FileEnt) (pre : Bytes) (ds : Nat) (row : Bytes × Nat × Nat × Bytes),
      pre.length = H' + ds →
      row ∈ layoutRows c a H' files ds →
      sliceData (pre ++ repackData c a files ds) row.2.1 row.2.2.1 = row.2.2.2 := by
  intro files
  induction files with
  | nil =>
    intro pre ds row hp hrow
    simp [layoutRows] at hrow
  | cons hd tl ih =>
    intro pre ds row hp hrow
    obtain ⟨name, data⟩ := hd
    have hbufeq : pre ++ repackData c a ((name, data) :: tl) ds
        = (pre ++ payloadOf c name data
            ++ List.replicate (alignUp (ds + (payloadOf c name data).length) a
              - (ds + (payloadOf c name data).length)) 0)
          ++ repackData c a tl (alignUp (ds + (payloadOf c name data).length) a) := by
      simp [repackData, List.append_assoc]
    simp only [layoutRows, List.mem_cons] at hrow
    rcases hrow with hrow | hrow
    · subst hrow
      unfold sliceData
      have hdrop : (pre ++ repackData c a ((name, data) :: tl) ds).drop (H' + ds)
          = repackData c a ((name, data) :: tl) ds := by
        rw [← hp]
        exact List.drop_left _ _
      have hD : repackData c a ((name, data) :: tl) ds
          = payloadOf c name data
            ++ (List.replicate (alignUp (ds + (payloadOf c name data).length) a
                - (ds + (payloadOf c name data).length)) 0
              ++ repackData c a tl (alignUp (ds + (payloadOf c name data).length) a)) := by
        simp [repackData, List.append_assoc]
      rw [hdrop, hD, List.take_left' rfl]
    · have hlen' : (pre ++ payloadOf c name data
          ++ List.replicate (alignUp (ds + (payloadOf c name data).length) a
            - (ds + (payloadOf c name data).length)) 0).length
          = H' + alignUp (ds + (payloadOf c name data).length) a := by
        have := alignUp_le (ds + (payloadOf c name data).length) a
        simp [hp]
        omega
      have hrec := ih _ _ row hlen' hrow
      rw [← hbufeq] at hrec
      exact hrec

/-- Extracting the rows laid out by the repack loop from the repacked data
region returns exactly the original (name, contents) pairs, with no error. -/
theorem extract_repackData (c : Bool) (a H' : Nat) :
    ∀ (files : List FileEnt) (pre : Bytes) (ds : Nat),
      (∀ f ∈ files, (0 : Nat) ∉ f.1) →
      pre.length = H' + ds →
      extractEntries (pre ++ repackData c a files ds) c
          ((layoutRows c a H' files ds).map (fun r => (r.1, r.2.1, r.2.2.1)))
        = (files, none) := by
  intro files
  induction files with
  | nil =>
    intro pre ds hn hp
    simp [repackData, layoutRows, extractEntries]
  | cons hd tl ih =>
    intro pre ds hn hp
    obtain ⟨name, data⟩ := hd
    have hname : (0 : Nat) ∉ name := hn (name, data) (List.mem_cons_self _ _)
    have hntl : ∀ f ∈ tl, (0 : Nat) ∉ f.1 := fun f hf' => hn f (List.mem_cons_of_mem _ hf')
    have hslice : sliceData (pre ++ repackData c a ((name, data) :: tl) ds)
        (H' + ds) (payloadOf c name data).length = payloadOf c name data := by
      unfold sliceData
      have hdrop : (pre ++ repackData c a ((name, data) :: tl) ds).drop (H' + ds)
          = repackData c a ((name, data) :: tl) ds := by
        rw [← hp]
        exact List.drop_left _ _
      have hD : repackData c a ((name, data) :: tl) ds
          = payloadOf c name data
            ++ (List.replicate (alignUp (ds + (payloadOf c name data).length) a
                - (ds + (payloadOf c name data).length)) 0
              ++ repackData c a tl (alignUp (ds + (payloadOf c name data).length) a)) := by
        simp [repackData, List.append_assoc]
      rw [hdrop, hD, List.take_left' rfl]
    have hbufeq : pre ++ repackData c a ((name, data) :: tl) ds
        = (pre ++ payloadOf c name data
            ++ List.replicate (alignUp (ds + (payloadOf c name data).length) a
              - (ds + (payloadOf c name data).length)) 0)
          ++ repackData c a tl (alignUp (ds + (payloadOf c name data).length) a) := by
      simp [repackData, List.append_assoc]
    have hlen' : (pre ++ payloadOf c name data
        ++ List.replicate (alignUp (ds + (payloadOf c name data).length) a
          - (ds + (payloadOf c name data).length)) 0).length
        = H' + alignUp (ds + (payloadOf c name data).length) a := by
      have := alignUp_le (ds + (payloadOf c name data).length) a
      simp [hp]
      omega
    have hrec := ih _ _ hntl hlen'
    rw [← hbufeq] at hrec
    simp only [layoutRows, List.map_cons]
    cases c with
    | false =>
      have hpd : payloadOf false name data = data := rfl
      rw [hpd] at hslice hrec
      simp only [extractEntries, Bool.false_eq_true, if_false, hpd, hslice]
      simp [hrec]
    | true =>
      have hg : gzipDecompress (payloadOf true name data) = some data :=
        gzipDecompress_payload name data hname
      simp only [extractEntries, if_true, hslice, hg, hrec]

/-! ### Claim C1 -/

/-- The parse phase of unpack, applied to a repacked archive, recovers the
compression flag and exactly the laid-out entry rows. -/
theorem unpackParse_repack (files : List FileEnt) (c : Bool) (a : Nat)
    (h2 : ∀ f ∈ files, (0 : Nat) ∉ f.1)
    (h3 : (repack files c a).length < 4294967296) :
    unpackParse (repack files c a)
      = .ok (c, (layoutRows c a (alignUp (orgHeaderSize c files) a) files 0).map
          (fun r => (r.1, r.2.1, r.2.2.1))) := by
  have horg12 := orgHeaderSize_ge c files
  have hHle := alignUp_le (orgHeaderSize c files) a
  have hlen := repack_length files c a
  have hfs0 := finalSize_le c a files 0
  have haH : a ≤ alignUp (orgHeaderSize c files) a :=
    alignUp_ge_align (orgHeaderSize c files) a (by omega)
  have htl : (repackTable c a (alignUp (orgHeaderSize c files) a) files 0).length
      = orgHeaderSize c files - 12 := by
    rw [repackTable_length]
    have : orgHeaderSize c files
        = (files.map (fun f => f.1.length + 1 + entryFixed c)).sum + 12 := rfl
    omega
  have hmlen : (if c then strFArC else strFArc).length = 4 := by cases c <;> rfl
  have hsplit : repack files c a
      = (if c then strFArC else strFArc)
        ++ (u32be (orgHeaderSize c files - 8)
          ++ (u32be a
            ++ (repackTable c a (alignUp (orgHeaderSize c files) a) files 0
              ++ (List.replicate (alignUp (orgHeaderSize c files) a
                    - orgHeaderSize c files) 0
                ++ repackData c a files 0)))) := by
    simp [repack, List.append_assoc]
  have hmagic : (repack files c a).take 4 = (if c then strFArC else strFArc) := by
    rw [hsplit]
    exact List.take_left' hmlen
  have hr4 : readU32 (repack files c a) 4 = .ok (orgHeaderSize c files - 8) := by
    rw [hsplit]
    refine readU32_append _ _ _ _ ?_ (by omega)
    rw [hmlen]
  have hr8 : readU32 (repack files c a) 8 = .ok a := by
    have hsplit2 : repack files c a
        = ((if c then strFArC else strFArc) ++ u32be (orgHeaderSize c files - 8))
          ++ (u32be a
            ++ (repackTable c a (alignUp (orgHeaderSize c files) a) files 0
              ++ (List.replicate (alignUp (orgHeaderSize c files) a
                    - orgHeaderSize c files) 0
                ++ repackData c a files 0))) := by
      simp [repack, List.append_assoc]
    rw [hsplit2]
    refine readU32_append _ _ _ _ ?_ (by omega)
    simp [hmlen, u32be]
  have hbounded : tableBounded c a (alignUp (orgHeaderSize c files) a) files 0 := by
    refine tableBounded_of_lt c a _ files 0 ?_
    omega
  have hfuel : files.length ≤ (repack files c a).length + 1 := by
    have := length_le_cost_sum c files
    have : orgHeaderSize c files
        = (files.map (fun f => f.1.length + 1 + entryFixed c)).sum + 12 := rfl
    have := length_le_cost_sum c files
    omega
  have hparse := parse_repackTable c a (alignUp (orgHeaderSize c files) a) files
    ((if c then strFArC else strFArc) ++ u32be (orgHeaderSize c files - 8) ++ u32be a)
    (List.replicate (alignUp (orgHeaderSize c files) a - orgHeaderSize c files) 0
      ++ repackData c a files 0)
    0 ((repack files c a).length + 1) h2 hbounded hfuel
  have hl12 : ((if c then strFArC else strFArc)
      ++ u32be (orgHeaderSize c files - 8) ++ u32be a).length = 12 := by
    simp [hmlen, u32be]
  rw [hl12] at hparse
  have hbufassoc : (if c then strFArC else strFArc)
      ++ u32be (orgHeaderSize c files - 8) ++ u32be a
      ++ (repackTable c a (alignUp (orgHeaderSize c files) a) files 0
        ++ (List.replicate (alignUp (orgHeaderSize c files) a
              - orgHeaderSize c files) 0
          ++ repackData c a files 0))
      = repack files c a := by
    simp [repack, List.append_assoc]
  rw [hbufassoc] at hparse
  simp only [unpackParse]
  rw [hmagic, hr4, hr8]
  cases c with
  | false =>
    have hif : (if false = true then strFArC else strFArc) = strFArc := rfl
    rw [hif]
    rw [if_pos (Or.inl rfl)]
    have hdecf : decide (strFArc = strFArC) = false := by decide
    rw [hdecf]
    dsimp only
    have hhdr : orgHeaderSize false files - 8 + 8
        = 12 + (repackTable false a (alignUp (orgHeaderSize false files) a) files 0).length := by
      omega
    rw [hhdr, hparse]
  | true =>
    have hif : (if true = true then strFArC else strFArc) = strFArC := rfl
    rw [hif]
    rw [if_pos (Or.inr rfl)]
    have hdect : decide (strFArC = strFArC) = true := by decide
    rw [hdect]
    dsimp only
    have hhdr : orgHeaderSize true files - 8 + 8
        = 12 + (repackTable true a (alignUp (orgHeaderSize true files) a) files 0).length := by
      omega
    rw [hhdr, hparse]

/-- C1: round trip.  For every ordered list of (name, contents) pairs whose
names contain no null byte (file names never do), any alignment ≥ 1 and
either compression setting, unpacking the repacked archive emits exactly
the original files — same names, same bytes, same order — with no error.
The archive must fit the format's uint32 fields, i.e. its total length is
below 2^32. -/
theorem c1_roundtrip (files : List FileEnt) (c : Bool) (a : Nat)
    (h1 : 1 ≤ a) (h2 : ∀ f ∈ files, (0 : Nat) ∉ f.1)
    (h3 : (repack files c a).length < 4294967296) :
    unpack (repack files c a) = (files, none) := by
  unfold unpack
  rw [unpackParse_repack files c a h2 h3]
  have hext := extract_repackData c a (alignUp (orgHeaderSize c files) a) files
    (headerPart files c a) 0 h2 (by rw [headerPart_length]; omega)
  rw [← repack_eq_parts files c a] at hext
  exact hext

/-- C1, witness: a concrete compressed round trip with two files ("hi" with
3 bytes, "z" empty) at alignment 4. -/
theorem c1_roundtrip_witness :
    unpack (repack [([104, 105], [1, 2, 3]), ([122], [])] true 4)
      = ([([104, 105], [1, 2, 3]), ([122], [])], none) :=
  c1_roundtrip [([104, 105], [1, 2, 3]), ([122], [])] true 4
    (by decide) (by decide) (by decide)

/-! ### Claim C3 -/

/-- C3: the stored header-size field plus 8 equals the true header boundary
(the position where the entry table ends, `12 + table bytes` =
`org_header_size`), and once padding is applied the header boundary — where
the data region begins — is a multiple of the alignment. -/
theorem c3_header_field (files : List FileEnt) (c : Bool) (a : Nat)
    (h1 : 1 ≤ a) (h2 : orgHeaderSize c files - 8 < 4294967296) :
    readU32 (repack files c a) 4 = .ok (orgHeaderSize c files - 8)
    ∧ 12 + (repackTable c a (alignUp (orgHeaderSize c files) a) files 0).length
        = orgHeaderSize c files
    ∧ alignUp (orgHeaderSize c files) a % a = 0 := by
  refine ⟨?_, ?_, alignUp_mod _ a h1⟩
  · have hmlen : (if c then strFArC else strFArc).length = 4 := by cases c <;> rfl
    have hsplit : repack files c a
        = (if c then strFArC else strFArc)
          ++ (u32be (orgHeaderSize c files - 8)
            ++ (u32be a
              ++ (repackTable c a (alignUp (orgHeaderSize c files) a) files 0
                ++ (List.replicate (alignUp (orgHeaderSize c files) a
                      - orgHeaderSize c files) 0
                  ++ repackData c a files 0)))) := by
      simp [repack, List.append_assoc]
    rw [hsplit]
    refine readU32_append _ _ _ _ ?_ h2
    rw [hmlen]
  · have htl := repackTable_length c a (alignUp (orgHeaderSize c files) a) files 0
    have horg : orgHeaderSize c files
        = (files.map (fun f => f.1.length + 1 + entryFixed c)).sum + 12 := rfl
    omega

/-- C3, witness at a concrete single-file archive with alignment 4. -/
theorem c3_witness :
    readU32 (repack [([120], [9])] false 4) 4
        = .ok (orgHeaderSize false [([120], [9])] - 8)
    ∧ 12 + (repackTable false 4 (alignUp (orgHeaderSize false [([120], [9])]) 4)
          [([120], [9])] 0).length
        = orgHeaderSize false [([120], [9])]
    ∧ alignUp (orgHeaderSize false [([120], [9])]) 4 % 4 = 0 :=
  c3_header_field [([120], [9])] false 4 (by decide) (by decide)

/-! ### Claim C4 -/

/-- C4: for every row the repack loop writes to the entry table, the bytes
of the final output in the range [offset, offset + stored size) are exactly
that row's payload as appended to the data buffer (raw bytes when
uncompressed, gzip-compressed name-injected bytes when compressed). -/
theorem c4_offsets_address_payloads (files : List FileEnt) (c : Bool) (a : Nat)
    (h1 : 1 ≤ a) (row : Bytes × Nat × Nat × Bytes)
    (hrow : row ∈ layoutRows c a (alignUp (orgHeaderSize c files) a) files 0) :
    sliceData (repack files c a) row.2.1 row.2.2.1 = row.2.2.2 := by
  have h := slice_layoutRows c a (alignUp (orgHeaderSize c files) a) files
    (headerPart files c a) 0 row (by rw [headerPart_length]; omega) hrow
  rw [← repack_eq_parts files c a] at h
  exact h

/-- C4, witness: the compressed single-file archive for "x" = [9]; its
payload sits at offset 26 with stored size 13. -/
theorem c4_witness :
    sliceData (repack [([120], [9])] true 1) 26 13
      = [31, 139, 8, 8, 0, 0, 0, 0, 0, 3, 120, 0, 9] :=
  c4_offsets_address_payloads [([120], [9])] true 1 (by decide)
    ([120], 26, 13, [31, 139, 8, 8, 0, 0, 0, 0, 0, 3, 120, 0, 9]) (by decide)

/-! ### Claim C8 -/

/-- Each laid-out row's offset starts at or after the current data position
and its payload ends within the final data size. -/
theorem layoutRows_bounds (c : Bool) (a H' : Nat) :
    ∀ (files : List FileEnt) (ds : Nat) (row : Bytes × Nat × Nat × Bytes),
      row ∈ layoutRows c a H' files ds →
      H' + ds ≤ row.2.1 ∧ row.2.1 + row.2.2.1 ≤ H' + finalSize c a files ds := by
  intro files
  induction files with
  | nil =>
    intro ds row hrow
    simp [layoutRows] at hrow
  | cons hd tl ih =>
    intro ds row hrow
    obtain ⟨name, data⟩ := hd
    have h1 := alignUp_le (ds + (payloadOf c name data).length) a
    have h2 := finalSize_le c a tl (alignUp (ds + (payloadOf c name data).length) a)
    have hfs : finalSize c a ((name, data) :: tl) ds
        = finalSize c a tl (alignUp (ds + (payloadOf c name data).length) a) := rfl
    simp only [layoutRows, List.mem_cons] at hrow
    rcases hrow with hrow | hrow
    · subst hrow
      refine ⟨Nat.le_refl _, ?_⟩
      simp only [hfs]
      omega
    · have := ih _ row hrow
      rw [hfs]
      omega

/-- When the aligned header size and the running data size are multiples of
the alignment, every laid-out offset is. -/
theorem layoutRows_mod (c : Bool) (a H' : Nat) (ha : 1 ≤ a) (hH : H' % a = 0) :
    ∀ (files : List FileEnt) (ds : Nat), ds % a = 0 →
      ∀ row ∈ layoutRows c a H' files ds, row.2.1 % a = 0 := by
  intro files
  induction files with
  | nil =>
    intro ds hds row hrow
    simp [layoutRows] at hrow
  | cons hd tl ih =>
    intro ds hds row hrow
    obtain ⟨name, data⟩ := hd
    simp only [layoutRows, List.mem_cons] at hrow
    rcases hrow with hrow | hrow
    · subst hrow
      simp only
      rw [Nat.add_mod, hH, hds]
      simp
    · exact ih _ (alignUp_mod _ a ha) row hrow

/-- Consecutive laid-out rows never overlap: each next offset is at or past
the previous payload's end. -/
theorem layoutRows_chain (c : Bool) (a H' : Nat) :
    ∀ (files : List FileEnt) (ds : Nat),
      List.Chain' (fun r s : Bytes × Nat × Nat × Bytes => r.2.1 + r.2.2.1 ≤ s.2.1)
        (layoutRows c a H' files ds) := by
  intro files
  induction files with
  | nil => intro ds; simp [layoutRows]
  | cons hd tl ih =>
    intro ds
    obtain ⟨name, data⟩ := hd
    simp only [layoutRows]
    refine List.chain'_cons'.mpr ⟨?_, ih _⟩
    intro y hy
    have h1 := alignUp_le (ds + (payloadOf c name data).length) a
    cases tl with
    | nil => simp [layoutRows] at hy
    | cons hd2 tl2 =>
      obtain ⟨n2, d2⟩ := hd2
      simp only [layoutRows, List.head?_cons, Option.mem_def, Option.some.injEq] at hy
      subst hy
      simp only
      omega

/-- C8: in every repacked archive's entry table, consecutive offsets are
monotone and non-overlapping (`off[i] + size[i] ≤ off[i+1]`), every offset
is a multiple of the alignment, every offset is at least the header size,
and every payload range ends within the output. -/
theorem c8_entry_table_invariants (files : List FileEnt) (c : Bool) (a : Nat)
    (h1 : 1 ≤ a) :
    (∀ (i : Nat)
      (hi : i + 1 < (layoutRows c a (alignUp (orgHeaderSize c files) a) files 0).length),
      ((layoutRows c a (alignUp (orgHeaderSize c files) a) files 0).get
          ⟨i, Nat.lt_of_succ_lt hi⟩).2.1
        + ((layoutRows c a (alignUp (orgHeaderSize c files) a) files 0).get
            ⟨i, Nat.lt_of_succ_lt hi⟩).2.2.1
        ≤ ((layoutRows c a (alignUp (orgHeaderSize c files) a) files 0).get ⟨i + 1, hi⟩).2.1)
    ∧ (1 < a →
        ∀ row ∈ layoutRows c a (alignUp (orgHeaderSize c files) a) files 0,
          row.2.1 % a = 0)
    ∧ (∀ row ∈ layoutRows c a (alignUp (orgHeaderSize c files) a) files 0,
        orgHeaderSize c files ≤ row.2.1
        ∧ row.2.1 + row.2.2.1 ≤ (repack files c a).length) := by
  refine ⟨?_, ?_, ?_⟩
  · intro i hi
    exact List.chain'_iff_get.mp (layoutRows_chain c a _ files 0) i (by omega)
  · intro _ row hrow
    exact layoutRows_mod c a _ h1 (alignUp_mod _ a h1) files 0 (Nat.zero_mod a) row hrow
  · intro row hrow
    have hb := layoutRows_bounds c a _ files 0 row hrow
    have hHle := alignUp_le (orgHeaderSize c files) a
    have hlen := repack_length files c a
    omega

/-- C8, witness at a concrete two-file archive with alignment 2: the rows
are ("x" at offset 32, size 1) and ("y" at offset 34, size 2). -/
theorem c8_witness :
    (((layoutRows false 2 (alignUp (orgHeaderSize false [([120], [1]), ([121], [2, 3])]) 2)
          [([120], [1]), ([121], [2, 3])] 0).get ⟨0, by decide⟩).2.1
        + ((layoutRows false 2 (alignUp (orgHeaderSize false [([120], [1]), ([121], [2, 3])]) 2)
            [([120], [1]), ([121], [2, 3])] 0).get ⟨0, by decide⟩).2.2.1
      ≤ ((layoutRows false 2 (alignUp (orgHeaderSize false [([120], [1]), ([121], [2, 3])]) 2)
          [([120], [1]), ([121], [2, 3])] 0).get ⟨1, by decide⟩).2.1)
    ∧ (([121], (34 : Nat), (2 : Nat), ([2, 3] : Bytes)).2.1 % 2 = 0)
    ∧ (orgHeaderSize false [([120], [1]), ([121], [2, 3])]
        ≤ (([121], (34 : Nat), (2 : Nat), ([2, 3] : Bytes)) : Bytes × Nat × Nat × Bytes).2.1
      ∧ (([121], (34 : Nat), (2 : Nat), ([2, 3] : Bytes)) : Bytes × Nat × Nat × Bytes).2.1
          + (([121], (34 : Nat), (2 : Nat), ([2, 3] : Bytes)) : Bytes × Nat × Nat × Bytes).2.2.1
        ≤ (repack [([120], [1]), ([121], [2, 3])] false 2).length) := by
  have T := c8_entry_table_invariants [([120], [1]), ([121], [2, 3])] false 2 (by decide)
  exact ⟨T.1 0 (by decide),
    T.2.1 (by decide) ([121], 34, 2, [2, 3]) (by decide),
    T.2.2 ([121], 34, 2, [2, 3]) (by decide)⟩

/-! ### Claim C5 -/

/-- C5: for every filename and every input of length ≥ 10,
`write_gzip_name` returns the first 10 input bytes with `0x08` OR-ed into
the flags byte (offset 3) and the OS byte (offset 9) overwritten with 3,
followed by the encoded filename and a single null byte, followed by the
input from offset 10 on.  (The operation is pure: it builds a new buffer
and the input list is untouched.) -/
theorem c5_write_gzip_name (name data : Bytes) (h : 10 ≤ data.length) :
    write_gzip_name name data
      = ((data.take 10).set 3 (data.getD 3 0 ||| 8)).set 9 3
        ++ name ++ [0] ++ data.drop 10 := by
  rcases data with _ | ⟨b0, _ | ⟨b1, _ | ⟨b2, _ | ⟨b3, _ | ⟨b4, _ | ⟨b5, _ | ⟨b6, _ | ⟨b7, _
    | ⟨b8, _ | ⟨b9, rest⟩⟩⟩⟩⟩⟩⟩⟩⟩⟩ <;>
    try (simp at h)
  unfold write_gzip_name writeBytesAt
  simp
  have hsplit : (b0 :: b1 :: b2 :: (b3 ||| 8) :: b4 :: b5 :: b6 :: b7 :: b8 :: 3 ::
      (name ++ 0 :: List.drop (10 + (name.length + 1))
        (b0 :: b1 :: b2 :: (b3 ||| 8) :: b4 :: b5 :: b6 :: b7 :: b8 :: 3 :: rest)))
      = ([b0, b1, b2, b3 ||| 8, b4, b5, b6, b7, b8, 3] ++ (name ++ [0]))
          ++ List.drop (10 + (name.length + 1))
            (b0 :: b1 :: b2 :: (b3 ||| 8) :: b4 :: b5 :: b6 :: b7 :: b8 :: 3 :: rest) := by
    simp
  rw [hsplit, List.take_left' (by simp; omega)]
  simp

/-- C5, witness at a concrete 12-byte gzip stream and the name "A". -/
theorem c5_witness :
    write_gzip_name [65] [31, 139, 8, 0, 0, 0, 0, 0, 0, 255, 7, 7]
      = (([31, 139, 8, 0, 0, 0, 0, 0, 0, 255, 7, 7].take 10).set 3
            (([31, 139, 8, 0, 0, 0, 0, 0, 0, 255, 7, 7] : Bytes).getD 3 0 ||| 8)).set 9 3
        ++ [65] ++ [0] ++ [31, 139, 8, 0, 0, 0, 0, 0, 0, 255, 7, 7].drop 10 :=
  c5_write_gzip_name [65] [31, 139, 8, 0, 0, 0, 0, 0, 0, 255, 7, 7] (by decide)

end PyFArc
